import Mathlib

/-!
Shallow embedding of anigo (src/unnamed/part_001), a Go program that renders
a looping GIF by evaluating a randomly weighted CPPN at every pixel.

Go float64 arithmetic is modelled by real arithmetic; Go slices of float64 by
List ℝ.  Vectors and matrices of the gonum mat64 package are modelled by
lists resp. a row-major Dense record, with the semantics of the mat64
operations that the program calls (NewVector, CopyVec, SetVec, MulVec,
CloneVec) spelled out at their use sites.
-/

namespace Anigo

/-- The two activation functions the program constructs (Sigmoid / Tanh in the
source).  The source pairs each with a display name that is never read; the
name is omitted here and the function itself is recovered by the
interpretation actFn below. -/
inductive Act where
  | tanh
  | sigmoid
deriving DecidableEq

/-- Interpretation of an Act tag as the real function the source builds:
Tanh() wraps math.Tanh, Sigmoid() wraps fun x => 1/(1+exp(-x)). -/
noncomputable def sigmoidFn (x : ℝ) : ℝ := 1 / (1 + Real.exp (-x))

noncomputable def actFn : Act → ℝ → ℝ
  | .tanh => Real.tanh
  | .sigmoid => sigmoidFn

/-- mat64.Dense as built by mat64.NewDense(r, c, data): r rows, c columns,
row-major backing data. -/
structure Dense where
  r : ℕ
  c : ℕ
  data : List ℝ

/-- Entry (i, j) of a Dense matrix (row-major indexing, as mat64 At). -/
def Dense.entry (m : Dense) (i j : ℕ) : ℝ := m.data.getD (i * m.c + j) 0

/-- The product of the transpose of an r × c matrix with a vector, as computed
by activated.MulVec(l.Weights.T(), withBias): component j (for j < c) is
the sum over i < r of Weights[i][j] * v[i]. -/
def matTvec (m : Dense) (v : List ℝ) : List ℝ :=
  (List.range m.c).map fun j => ∑ i ∈ Finset.range m.r, m.entry i j * v.getD i 0

/-- A Layer of the network: weight matrix plus activation tag
(type Layer in the source). -/
structure Layer where
  weights : Dense
  act : Act

/-- withBias.CopyVec(signal): copy min(dst.Len, src.Len) leading elements of
src into dst, keeping the rest of dst. -/
def copyVec (dst src : List ℝ) : List ℝ :=
  (List.range dst.length).map fun i => if i < src.length then src.getD i 0 else dst.getD i 0

/-- Layer.Activate from the source, step for step:
withBias := NewVector(signal.Len()+1, nil) (zeros); withBias.CopyVec(signal);
withBias.SetVec(signal.Len(), -1.0); activated := NewVector(c, make c) filled
by MulVec with the transposed weights; then a loop replacing each component i
by Activation.Fn of itself. -/
def activate (f : Act → ℝ → ℝ) (l : Layer) (signal : List ℝ) : List ℝ :=
  let withBias := (copyVec (List.replicate (signal.length + 1) 0) signal).set signal.length (-1)
  let raw := matTvec l.weights withBias
  (List.range l.weights.c).foldl (fun acc i => acc.set i (f l.act (acc.getD i 0))) raw

/-- Errors of the embedded program.  dimensionMismatch is the panic raised by
FeedForward when the input slice length differs from NumInputs;
shapeMismatch models the mat64 ErrShape panic MulVec raises when the
bias-augmented signal length differs from the weight row count. -/
inductive CPPNError where
  | dimensionMismatch (got : ℕ)
  | shapeMismatch
deriving DecidableEq

/-- Layer.Activate with the mat64 MulVec shape check made explicit: MulVec
panics unless withBias.Len() (= signal length + 1) equals the row count of
the weight matrix. -/
def activateE (f : Act → ℝ → ℝ) (l : Layer) (signal : List ℝ) : Except CPPNError (List ℝ) :=
  if signal.length + 1 = l.weights.r then .ok (activate f l signal) else .error .shapeMismatch

/-- CPPNParam from the source (NumInputs, NumHiddenLayers, NumHiddenNeurons,
NumOutputs). -/
structure CPPNParam where
  numInputs : ℕ
  numHiddenLayers : ℕ
  numHiddenNeurons : ℕ
  numOutputs : ℕ

structure CPPN where
  param : CPPNParam
  layers : List Layer

/-- NewLayer(r, c, activation): draws r*c weights from the global random
source (modelled as the stream g, consumed in order from position k; the
source stores rand.NormFloat64()*0.5, and g is the already scaled value) and
wraps them in an r × c Dense.  Returns the layer and the next unread stream
position. -/
def newLayer (g : ℕ → ℝ) (k r c : ℕ) (a : Act) : Layer × ℕ :=
  (⟨⟨r, c, (List.range (r * c)).map fun i => g (k + i)⟩, a⟩, k + r * c)

/-- The middle-layer loop of NewCPPN: for i := 1; i < NumHiddenLayers; i++
append NewLayer(NumHiddenNeurons+1, NumHiddenNeurons, Tanh()).  cnt is the
number of remaining iterations. -/
def buildMiddles (g : ℕ → ℝ) (k n : ℕ) : ℕ → List Layer × ℕ
  | 0 => ([], k)
  | cnt + 1 =>
    let p := newLayer g k (n + 1) n .tanh
    let rest := buildMiddles g p.2 n cnt
    (p.1 :: rest.1, rest.2)

/-- NewCPPN from the source: first layer NewLayer(NumInputs+1,
NumHiddenNeurons, Tanh()), then NumHiddenLayers-1 middle layers, then
NewLayer(NumHiddenNeurons+1, NumOutputs, Sigmoid()).  The weight stream g
stands for the sequence of scaled rand.NormFloat64() draws. -/
def newCPPN (g : ℕ → ℝ) (param : CPPNParam) : CPPN :=
  let p0 := newLayer g 0 (param.numInputs + 1) param.numHiddenNeurons .tanh
  let mids := buildMiddles g p0.2 param.numHiddenNeurons (param.numHiddenLayers - 1)
  let plast := newLayer g mids.2 (param.numHiddenNeurons + 1) param.numOutputs .sigmoid
  ⟨param, p0.1 :: mids.1 ++ [plast.1]⟩

/-- The first layer NewCPPN appends: NewLayer(NumInputs+1, NumHiddenNeurons,
Tanh()). -/
def firstLayer (g : ℕ → ℝ) (p : CPPNParam) : Layer :=
  (newLayer g 0 (p.numInputs + 1) p.numHiddenNeurons .tanh).1

/-- The middle layers NewCPPN appends. -/
def midLayers (g : ℕ → ℝ) (p : CPPNParam) : List Layer :=
  (buildMiddles g (newLayer g 0 (p.numInputs + 1) p.numHiddenNeurons .tanh).2
    p.numHiddenNeurons (p.numHiddenLayers - 1)).1

/-- The final layer NewCPPN appends: NewLayer(NumHiddenNeurons+1, NumOutputs,
Sigmoid()). -/
def lastLayer (g : ℕ → ℝ) (p : CPPNParam) : Layer :=
  (newLayer g
    (buildMiddles g (newLayer g 0 (p.numInputs + 1) p.numHiddenNeurons .tanh).2
      p.numHiddenNeurons (p.numHiddenLayers - 1)).2
    (p.numHiddenNeurons + 1) p.numOutputs .sigmoid).1

/-- The layer loop of FeedForward: outputs := layer.Activate(signalVec);
signalVec.CloneVec(outputs), for each layer in order. -/
def pipeLayers (f : Act → ℝ → ℝ) : List Layer → List ℝ → Except CPPNError (List ℝ)
  | [], s => .ok s
  | l :: ls, s =>
    match activateE f l s with
    | .ok out => pipeLayers f ls out
    | .error e => .error e

/-- CPPN.FeedForward: panics with the "invalid number of inputs" error when
len(inputs) != NumInputs, otherwise pipes the input through the layers. -/
def feedForward (f : Act → ℝ → ℝ) (net : CPPN) (inputs : List ℝ) : Except CPPNError (List ℝ) :=
  if inputs.length = net.param.numInputs then pipeLayers f net.layers inputs
  else .error (.dimensionMismatch inputs.length)

/-- Validity of a network configuration in the sense of the spec: all four
dimensions positive. -/
def validParam (p : CPPNParam) : Prop :=
  0 < p.numInputs ∧ 0 < p.numHiddenLayers ∧ 0 < p.numHiddenNeurons ∧ 0 < p.numOutputs

instance (p : CPPNParam) : Decidable (validParam p) := by
  unfold validParam; infer_instance

/-- Shape chaining of a layer list against an incoming (pre-bias) signal
width: each layer requires signal length + 1 = weight rows and outputs
weight-columns many values. -/
def chainedFrom : List Layer → ℕ → Prop
  | [], _ => True
  | l :: ls, n => n + 1 = l.weights.r ∧ chainedFrom ls l.weights.c

/-- The (pre-bias) output width of a layer list applied to a signal of the
given width. -/
def lastSize : List Layer → ℕ → ℕ
  | [], n => n
  | l :: ls, _ => lastSize ls l.weights.c

/-- Shape summary of a layer: (weight rows, weight columns, activation). -/
def shape (l : Layer) : ℕ × ℕ × Act := (l.weights.r, l.weights.c, l.act)

/-! Rendering pipeline (drawPixel, drawPart, the theta loop of main). -/

/-- Phase feature z1 of drawPixel: math.Cos(float64(theta) / (math.Pi * 3.0)). -/
noncomputable def phase1 (theta : ℝ) : ℝ := Real.cos (theta / (Real.pi * 3))

/-- Phase feature z2 of drawPixel: math.Sin(float64(theta) / (math.Pi * 3.0)). -/
noncomputable def phase2 (theta : ℝ) : ℝ := Real.sin (theta / (Real.pi * 3))

/-- A Go color value as handed to frame.Set: either color.Gray{y} or
color.RGBA{r, g, b, a} with 8-bit channels. -/
inductive GoColor where
  | gray (y : ℕ)
  | rgba (r g b a : ℕ)
deriving DecidableEq

/-- Go conversion uint8(x) for a float64 x in [0, 256): truncation toward
zero, i.e. the floor.  Outputs of the network lie in (0, 1), so the scaled
channel values 255*output[i] stay inside this range. -/
noncomputable def floorU8 (x : ℝ) : ℕ := (⌊x⌋).toNat % 256

/-- The configuration captured by the drawPixel closure: the CPPN, the
pattern/gray flags and the density/sharpness/focus parameters, plus the
frame dimensions. -/
structure RenderConfig where
  net : CPPN
  pattern : Bool
  gray : Bool
  density : ℝ
  sharpness : ℝ
  focus : ℝ
  width : ℕ
  height : ℕ

/-- The five input features drawPixel computes for pixel (x, y) at phase
sample theta.  In pattern mode xs = sin(x*density)*sharpness and
ys = cos(y*density)*sharpness, otherwise xs = x*sharpness, ys = y*sharpness;
both modes share r = sqrt((x-width/2)^2 + (y-height/2)^2)*sharpness*focus
(Go int subtraction x - width/2 with truncating integer division) and the
phase pair z1, z2. -/
noncomputable def featureVector (cfg : RenderConfig) (x y theta : ℕ) : List ℝ :=
  let xs := if cfg.pattern then Real.sin (x * cfg.density) * cfg.sharpness
            else x * cfg.sharpness
  let ys := if cfg.pattern then Real.cos (y * cfg.density) * cfg.sharpness
            else y * cfg.sharpness
  let r := Real.sqrt ((((x : ℤ) - (cfg.width : ℤ) / 2 : ℤ) : ℝ) ^ 2 +
      (((y : ℤ) - (cfg.height : ℤ) / 2 : ℤ) : ℝ) ^ 2) * cfg.sharpness * cfg.focus
  [xs, ys, r, phase1 theta, phase2 theta]

/-- The color drawPixel writes at (x, y) for phase sample theta: feed the
feature vector forward and scale the outputs to 8-bit channels; gray mode
uses output[0] only, color mode uses output[0..2] with alpha 255. -/
noncomputable def pixelColor (cfg : RenderConfig) (theta x y : ℕ) : GoColor :=
  let output := ((feedForward actFn cfg.net (featureVector cfg x y theta)).toOption).getD []
  if cfg.gray then .gray (floorU8 (255 * output.getD 0 0))
  else .rgba (floorU8 (255 * output.getD 0 0)) (floorU8 (255 * output.getD 1 0))
    (floorU8 (255 * output.getD 2 0)) 255

/-- A frame buffer: the color written at each pixel, none where nothing was
written yet (image.NewPaletted starts with an all-zero index buffer that the
renderer overwrites everywhere inside the frame rectangle). -/
def FrameBuf : Type := ℕ × ℕ → Option GoColor

/-- Apply a list of pixel writes (frame.Set calls) in order to a frame
buffer; a later write to the same pixel wins. -/
def applyWrites (ws : List ((ℕ × ℕ) × GoColor)) (f : FrameBuf) : FrameBuf :=
  ws.foldl (fun acc w => fun p => if p = w.1 then some w.2 else acc p) f

/-- The sequence of frame.Set calls one drawPart(frame, x0, x1, y0, y1,
theta) task performs: rows y0 ≤ y < y1 in order, columns x0 ≤ x < x1 inside
each row, writing g x y at (x, y). -/
def partWrites (g : ℕ → ℕ → GoColor) (x0 x1 y0 y1 : ℕ) : List ((ℕ × ℕ) × GoColor) :=
  (List.range' y0 (y1 - y0)).flatMap fun y =>
    (List.range' x0 (x1 - x0)).map fun x => ((x, y), g x y)

/-- The four drawPart tasks main spawns for one frame, in spawn order:
the four quadrants split at width/2 and height/2. -/
def quadWrites (g : ℕ → ℕ → GoColor) (w h : ℕ) : List ((ℕ × ℕ) × GoColor) :=
  partWrites g 0 (w / 2) 0 (h / 2) ++ partWrites g (w / 2) w 0 (h / 2) ++
    partWrites g 0 (w / 2) (h / 2) h ++ partWrites g (w / 2) w (h / 2) h

/-- One rendered frame: all quadrant writes of phase sample theta applied to
a fresh buffer. -/
noncomputable def renderFrame (cfg : RenderConfig) (theta : ℕ) : FrameBuf :=
  applyWrites (quadWrites (pixelColor cfg theta) cfg.width cfg.height) (fun _ => none)

/-- The gif.GIF record main accumulates: parallel frame and delay lists. -/
structure GoGIF where
  image : List FrameBuf
  delay : List ℤ

/-- The theta loop of main: for theta := 0; theta < 60; theta++ render a
frame (four joined drawPart tasks), append it to img.Image and append delay
0 to img.Delay. -/
noncomputable def animLoop (cfg : RenderConfig) : GoGIF :=
  (List.range 60).foldl
    (fun acc theta => ⟨acc.image ++ [renderFrame cfg theta], acc.delay ++ [0]⟩)
    ⟨[], []⟩

/-- The gray-mode palette construction of main, recorded as the list of
8-bit gray levels appended: colors := make(..., 0, 256); for i := 0;
i < 255; i++ { colors = append(colors, color.Gray{uint8(i)}) }. -/
def grayPaletteLevels : List ℕ :=
  (List.range 255).foldl (fun acc i => acc ++ [i % 256]) []

/-! Store model of FeedForward for the aliasing claim: float64 backing
arrays live in a store addressed by allocation order.  A stored list is a
whole backing array, so its list length is the array's capacity.  A mat64
Vector is a reference: the address of its backing plus its own element
count n (with n at most the backing capacity); the vector's contents are
the first n elements of the backing. -/

/-- A store of float64 backing arrays; the address of an array is its
index, and its list length is its capacity. -/
structure Store where
  arrays : List (List ℝ)

/-- A mat64 Vector: backing address plus element count. -/
structure VecRef where
  addr : ℕ
  n : ℕ

/-- Allocate a fresh backing array, returning the new store and its
address. -/
def Store.alloc (s : Store) (d : List ℝ) : Store × ℕ :=
  (⟨s.arrays ++ [d]⟩, s.arrays.length)

/-- Read the backing array at an address (the empty array at a dangling
address). -/
def Store.read (s : Store) (a : ℕ) : List ℝ :=
  s.arrays.getD a []

/-- Overwrite the backing array at an address. -/
def Store.write (s : Store) (a : ℕ) (d : List ℝ) : Store :=
  ⟨s.arrays.set a d⟩

/-- Layer.Activate on the store: NewVector(n+1, nil) allocates fresh zeros
for withBias (capacity = length n+1); CopyVec and SetVec write through the
withBias address only; NewVector(c, make c) allocates fresh zeros for
activated; MulVec writes the transposed product through the activated
address; the activation loop does i-wise SetVec writes through the
activated address.  Returns the store and the reference to activated
(c elements on fresh backing).  No existing array is written. -/
def activateS (f : Act → ℝ → ℝ) (l : Layer) (s : Store) (sig : VecRef) : Store × VecRef :=
  let n := sig.n
  let p1 := s.alloc (List.replicate (n + 1) 0)
  let s2 := p1.1.write p1.2 (copyVec (p1.1.read p1.2) ((p1.1.read sig.addr).take sig.n))
  let s3 := s2.write p1.2 ((s2.read p1.2).set n (-1))
  let p4 := s3.alloc (List.replicate l.weights.c 0)
  let s5 := p4.1.write p4.2 (matTvec l.weights (p4.1.read p1.2))
  let s6 := (List.range l.weights.c).foldl
    (fun st i => st.write p4.2 ((st.read p4.2).set i (f l.act ((st.read p4.2).getD i 0)))) s5
  (s6, ⟨p4.2, l.weights.c⟩)

/-- v.CloneVec(a) of the mat64 package: the receiver's new data slice is
use(v.mat.Data, a.n), which REUSES the receiver's existing backing when its
capacity is at least a.n and only otherwise allocates fresh backing; then
blas64.Copy writes a's n elements over the first n slots of that backing
(the rest of the backing keeps its old contents).  The receiver's length
becomes a.n; its address changes only in the allocation case.  (The v == a
early return never fires in FeedForward: outputs is always a vector freshly
created inside Activate, distinct from signalVec.) -/
def cloneVecS (s : Store) (v a : VecRef) : Store × VecRef :=
  if a.n ≤ (s.read v.addr).length then
    (s.write v.addr (((s.read a.addr).take a.n) ++ (s.read v.addr).drop a.n), ⟨v.addr, a.n⟩)
  else
    let p := s.alloc ((s.read a.addr).take a.n)
    (p.1, ⟨p.2, a.n⟩)

/-- The layer loop of FeedForward on the store: outputs := Activate(signal);
signalVec.CloneVec(outputs). -/
def pipeS (f : Act → ℝ → ℝ) : List Layer → Store → VecRef → Store × VecRef
  | [], s, sig => (s, sig)
  | l :: ls, s, sig =>
    let p1 := activateS f l s sig
    let p2 := cloneVecS p1.1 sig p1.2
    pipeS f ls p2.1 p2.2

/-- FeedForward on the store.  signalVec := NewVector(len(inputs), inputs)
wraps the caller's slice without copying, so the initial signal reference
IS the caller's array address with the slice's length; on a length mismatch
the function panics before performing any vector operation, leaving the
store untouched. -/
def feedForwardS (f : Act → ℝ → ℝ) (net : CPPN) (s : Store) (inp : VecRef) :
    (Store × VecRef) × Option CPPNError :=
  if inp.n = net.param.numInputs then (pipeS f net.layers s inp, none)
  else ((s, inp), some (.dimensionMismatch inp.n))

/-- The offset between one whole theta loop (60 samples) and one full period
of the phase functions: 60/(3π) - 2π.  The program loops seamlessly exactly
when this is negligible. -/
noncomputable def loopGap : ℝ := 60 / (Real.pi * 3) - 2 * Real.pi

/-! Concrete fixtures for witnesses. -/

/-- An all-zero weight stream, standing for one concrete run of the seeded
random source. -/
def zeroStream : ℕ → ℝ := fun _ => 0

/-- A small valid configuration: 5 inputs, 1 hidden layer, 2 hidden neurons,
3 outputs. -/
def testParam : CPPNParam := ⟨5, 1, 2, 3⟩

def testNet : CPPN := newCPPN zeroStream testParam

/-- A 2 × 2 plain-mode color render configuration over testNet. -/
def testCfg : RenderConfig := ⟨testNet, false, false, 0, 0, 0, 2, 2⟩

/-- The configuration main builds for gray mode with depth 0: zero hidden
layers, which the spec calls invalid. -/
def depthZeroParam : CPPNParam := ⟨5, 0, 16, 3⟩

/-- Default layer for indexed access. -/
def defaultLayer : Layer := ⟨⟨0, 0, []⟩, .tanh⟩

/-- A concrete 2 × 1 tanh layer. -/
def testLayer : Layer := ⟨⟨2, 1, [1, 2]⟩, .tanh⟩

/-- A store holding one five-element input slice at address 0. -/
def testStore : Store := ⟨[[0, 0, 0, 0, 0]]⟩

/-- An all-one weight stream. -/
def oneStream : ℕ → ℝ := fun _ => 1

/-- A minimal valid configuration whose hidden width (1) does not exceed
the capacity of a one-element input slice. -/
def cexParam : CPPNParam := ⟨1, 1, 1, 1⟩

def cexNet : CPPN := newCPPN oneStream cexParam

/-- A store holding one single-element input slice [0] at address 0
(capacity 1, like the Go slice literal). -/
def cexStore : Store := ⟨[[0]]⟩

/-- The caller's wrapped input slice: address 0, one element. -/
def cexRef : VecRef := ⟨0, 1⟩

/-- The program's default-like configuration: depth 12, size 24, color.
Its hidden width 24 exceeds the capacity 5 of the feature-vector slice. -/
def progParam : CPPNParam := ⟨5, 12, 24, 3⟩

/-- The caller's wrapped five-element feature slice: address 0, length 5. -/
def progRef : VecRef := ⟨0, 5⟩

/-! Helper lemmas. -/

theorem newCPPN_param (g : ℕ → ℝ) (p : CPPNParam) : (newCPPN g p).param = p := rfl

theorem newLayer_shape (g : ℕ → ℝ) (k r c : ℕ) (a : Act) :
    shape (newLayer g k r c a).1 = (r, c, a) := rfl

/-- The bias-augmented vector built from NewVector zeros, CopyVec and SetVec
is exactly the input with the constant -1 appended. -/
theorem copyVec_length (dst src : List ℝ) : (copyVec dst src).length = dst.length := by
  simp [copyVec]

theorem withBias_eq (signal : List ℝ) :
    (copyVec (List.replicate (signal.length + 1) 0) signal).set signal.length (-1) =
      signal ++ [-1] := by
  have hlc : (copyVec (List.replicate (signal.length + 1) 0) signal).length =
      signal.length + 1 := by
    rw [copyVec_length, List.length_replicate]
  apply List.ext_getElem
  · rw [List.length_set, hlc]; simp
  · intro i h1 h2
    rw [List.length_set, hlc] at h1
    by_cases hi : i < signal.length
    · rw [List.getElem_set_ne (by omega)]
      have hilt : i < (copyVec (List.replicate (signal.length + 1) 0) signal).length := by
        omega
      have hmem : (copyVec (List.replicate (signal.length + 1) 0) signal)[i] =
          signal.getD i 0 := by
        simp [copyVec, hi]
      rw [hmem, List.getElem_append_left hi]
      exact List.getD_eq_getElem signal 0 hi
    · have hieq : i = signal.length := by omega
      subst hieq
      rw [List.getElem_set_self (by rw [List.length_set, hlc]; omega)]
      rw [List.getElem_append_right (by omega)]
      simp

theorem matTvec_length (m : Dense) (v : List ℝ) : (matTvec m v).length = m.c := by
  simp [matTvec]

/-- The in-place activation loop (SetVec of Fn at each index in order) maps
the function over the vector. -/
theorem foldl_set_map_aux (g : ℝ → ℝ) :
    ∀ (suf pre : List ℝ),
      (List.range' pre.length suf.length).foldl
        (fun acc i => acc.set i (g (acc.getD i 0))) (pre ++ suf) = pre ++ suf.map g := by
  intro suf
  induction suf with
  | nil => simp
  | cons a suf ih =>
    intro pre
    rw [List.length_cons, List.range'_succ, List.foldl_cons]
    have hget : (pre ++ a :: suf).getD pre.length 0 = a := by
      rw [List.getD_append_right pre (a :: suf) 0 pre.length le_rfl]
      simp
    have hset : (pre ++ a :: suf).set pre.length (g ((pre ++ a :: suf).getD pre.length 0)) =
        (pre ++ [g a]) ++ suf := by
      rw [hget, List.set_append_right _ _ le_rfl]
      simp
    rw [hset]
    have hlen : pre.length + 1 = (pre ++ [g a]).length := by simp
    rw [hlen, ih (pre ++ [g a])]
    simp

theorem foldl_set_map (g : ℝ → ℝ) (v : List ℝ) :
    (List.range v.length).foldl (fun acc i => acc.set i (g (acc.getD i 0))) v = v.map g := by
  have := foldl_set_map_aux g v []
  simpa [List.range_eq_range'] using this

/-- Activate, unfolded: the transposed-weights product of the bias-augmented
input, mapped through the activation function. -/
theorem activate_eq (f : Act → ℝ → ℝ) (l : Layer) (signal : List ℝ) :
    activate f l signal = (matTvec l.weights (signal ++ [-1])).map (f l.act) := by
  unfold activate
  rw [withBias_eq]
  have h := foldl_set_map (f l.act) (matTvec l.weights (signal ++ [-1]))
  rw [matTvec_length] at h
  exact h

theorem activate_length (f : Act → ℝ → ℝ) (l : Layer) (signal : List ℝ) :
    (activate f l signal).length = l.weights.c := by
  rw [activate_eq, List.length_map, matTvec_length]

/-- When the shapes chain, the layer pipeline never fails and its output has
the chained final width. -/
theorem pipeLayers_ok (f : Act → ℝ → ℝ) :
    ∀ (ls : List Layer) (s : List ℝ), chainedFrom ls s.length →
      ∃ out, pipeLayers f ls s = .ok out ∧ out.length = lastSize ls s.length := by
  intro ls
  induction ls with
  | nil => intro s _; exact ⟨s, rfl, rfl⟩
  | cons l ls ih =>
    intro s hc
    obtain ⟨h1, h2⟩ := hc
    have hact : activateE f l s = .ok (activate f l s) := by
      simp [activateE, h1]
    have hlen : (activate f l s).length = l.weights.c := activate_length f l s
    obtain ⟨out, hout, hlen2⟩ := ih (activate f l s) (by rw [hlen]; exact h2)
    exact ⟨out, by simp [pipeLayers, hact, hout], by rw [hlen2, hlen, lastSize]⟩

/-- When the shapes chain, the pipeline output of a layer list ending in a
given last layer is an Activate result of that last layer. -/
theorem pipeLayers_concat (f : Act → ℝ → ℝ) (llast : Layer) :
    ∀ (ls : List Layer) (s : List ℝ), chainedFrom (ls ++ [llast]) s.length →
      ∃ sig, pipeLayers f (ls ++ [llast]) s = .ok (activate f llast sig) := by
  intro ls
  induction ls with
  | nil =>
    intro s hc
    obtain ⟨h1, -⟩ := hc
    exact ⟨s, by simp [pipeLayers, activateE, h1]⟩
  | cons l ls ih =>
    intro s hc
    obtain ⟨h1, h2⟩ := hc
    have hact : activateE f l s = .ok (activate f l s) := by
      simp [activateE, h1]
    obtain ⟨sig, hsig⟩ := ih (activate f l s) (by rw [activate_length]; exact h2)
    exact ⟨sig, by simp [List.cons_append, pipeLayers, hact, hsig]⟩

/-- Every layer produced by the middle-layer loop is an
(n+1) × n tanh layer. -/
theorem buildMiddles_mem (g : ℕ → ℝ) (n : ℕ) :
    ∀ (cnt k : ℕ) (l : Layer), l ∈ (buildMiddles g k n cnt).1 →
      l.weights.r = n + 1 ∧ l.weights.c = n ∧ l.act = .tanh := by
  intro cnt
  induction cnt with
  | zero => intro k l h; simp [buildMiddles] at h
  | succ cnt ih =>
    intro k l h
    simp only [buildMiddles, List.mem_cons] at h
    rcases h with h | h
    · subst h; exact ⟨rfl, rfl, rfl⟩
    · exact ih _ l h

/-- The middle-layer loop produces exactly cnt layers of shape
(n+1, n, tanh). -/
theorem buildMiddles_shape (g : ℕ → ℝ) (n : ℕ) :
    ∀ (cnt k : ℕ),
      ((buildMiddles g k n cnt).1).map shape = List.replicate cnt (n + 1, n, Act.tanh) := by
  intro cnt
  induction cnt with
  | zero => intro k; simp [buildMiddles]
  | succ cnt ih =>
    intro k
    simp only [buildMiddles, List.map_cons, ih, List.replicate_succ]
    rfl

theorem buildMiddles_length (g : ℕ → ℝ) (n : ℕ) :
    ∀ (cnt k : ℕ), ((buildMiddles g k n cnt).1).length = cnt := by
  intro cnt
  induction cnt with
  | zero => intro k; rfl
  | succ cnt ih => intro k; simp [buildMiddles, ih]

/-- A block of (n+1) × n layers chains from width n into anything that
chains from width n. -/
theorem chainedFrom_block (n : ℕ) (rest : List Layer) (hrest : chainedFrom rest n) :
    ∀ (mids : List Layer), (∀ l ∈ mids, l.weights.r = n + 1 ∧ l.weights.c = n) →
      chainedFrom (mids ++ rest) n := by
  intro mids
  induction mids with
  | nil => intro _; simpa using hrest
  | cons l ls ih =>
    intro hmem
    obtain ⟨hr, hc⟩ := hmem l (by simp)
    refine ⟨by rw [hr], ?_⟩
    rw [hc]
    exact ih fun l' hl' => hmem l' (by simp [hl'])

theorem lastSize_concat (l : Layer) :
    ∀ (ls : List Layer) (n : ℕ), lastSize (ls ++ [l]) n = l.weights.c := by
  intro ls
  induction ls with
  | nil => intro n; rfl
  | cons l' ls ih => intro n; exact ih _

/-- The layer list of the constructed network, written out. -/
theorem newCPPN_layers (g : ℕ → ℝ) (p : CPPNParam) :
    (newCPPN g p).layers = firstLayer g p :: midLayers g p ++ [lastLayer g p] := rfl

theorem midLayers_length (g : ℕ → ℝ) (p : CPPNParam) :
    (midLayers g p).length = p.numHiddenLayers - 1 :=
  buildMiddles_length g _ _ _

theorem midLayers_shape (g : ℕ → ℝ) (p : CPPNParam) :
    (midLayers g p).map shape =
      List.replicate (p.numHiddenLayers - 1)
        (p.numHiddenNeurons + 1, p.numHiddenNeurons, Act.tanh) :=
  buildMiddles_shape g _ _ _

theorem midLayers_mem (g : ℕ → ℝ) (p : CPPNParam) (l : Layer) (hl : l ∈ midLayers g p) :
    l.weights.r = p.numHiddenNeurons + 1 ∧ l.weights.c = p.numHiddenNeurons ∧
      l.act = .tanh :=
  buildMiddles_mem g _ _ _ l hl

theorem firstLayer_shape (g : ℕ → ℝ) (p : CPPNParam) :
    shape (firstLayer g p) = (p.numInputs + 1, p.numHiddenNeurons, Act.tanh) := rfl

theorem lastLayer_shape (g : ℕ → ℝ) (p : CPPNParam) :
    shape (lastLayer g p) = (p.numHiddenNeurons + 1, p.numOutputs, Act.sigmoid) := rfl

/-- The constructed network always chains from its configured input width. -/
theorem newCPPN_chained (g : ℕ → ℝ) (p : CPPNParam) :
    chainedFrom (newCPPN g p).layers p.numInputs := by
  rw [newCPPN_layers]
  refine ⟨rfl, ?_⟩
  apply chainedFrom_block
  · exact ⟨rfl, trivial⟩
  · intro l hl
    have h := midLayers_mem g p l hl
    exact ⟨h.1, h.2.1⟩

theorem tanh_lt_one (x : ℝ) : Real.tanh x < 1 := by
  rw [Real.tanh_eq_sinh_div_cosh, div_lt_one (Real.cosh_pos x)]
  exact Real.sinh_lt_cosh x

theorem neg_one_lt_tanh (x : ℝ) : -1 < Real.tanh x := by
  have h := tanh_lt_one (-x)
  rw [Real.tanh_neg] at h
  linarith

theorem sigmoidFn_pos (x : ℝ) : 0 < sigmoidFn x := by
  unfold sigmoidFn
  positivity

theorem sigmoidFn_lt_one (x : ℝ) : sigmoidFn x < 1 := by
  unfold sigmoidFn
  rw [div_lt_one (by positivity)]
  linarith [Real.exp_pos (-x)]

/-- Every component a tanh layer produces lies strictly between -1 and 1. -/
theorem activate_tanh_mem (l : Layer) (hl : l.act = .tanh) (s : List ℝ) :
    ∀ v ∈ activate actFn l s, -1 < v ∧ v < 1 := by
  intro v hv
  rw [activate_eq, hl] at hv
  simp only [actFn, List.mem_map] at hv
  obtain ⟨w, -, rfl⟩ := hv
  exact ⟨neg_one_lt_tanh w, tanh_lt_one w⟩

/-- Every component a sigmoid layer produces lies strictly between 0 and 1. -/
theorem activate_sigmoid_mem (l : Layer) (hl : l.act = .sigmoid) (s : List ℝ) :
    ∀ v ∈ activate actFn l s, 0 < v ∧ v < 1 := by
  intro v hv
  rw [activate_eq, hl] at hv
  simp only [actFn, List.mem_map] at hv
  obtain ⟨w, -, rfl⟩ := hv
  exact ⟨sigmoidFn_pos w, sigmoidFn_lt_one w⟩

/-! Partition-invariance machinery. -/

/-- Applying a list of writes whose values are determined by their pixel
(the color is a pure function of the coordinates) overwrites exactly the
written pixels, regardless of the order of the writes. -/
theorem applyWrites_eq (g : ℕ → ℕ → GoColor) :
    ∀ (ws : List ((ℕ × ℕ) × GoColor)) (f : FrameBuf),
      (∀ w ∈ ws, w.2 = g w.1.1 w.1.2) →
      ∀ p, applyWrites ws f p =
        if p ∈ ws.map Prod.fst then some (g p.1 p.2) else f p := by
  intro ws
  induction ws with
  | nil => intro f _ p; simp [applyWrites]
  | cons w ws ih =>
    intro f hg p
    have hw : w.2 = g w.1.1 w.1.2 := hg w (by simp)
    have step : applyWrites (w :: ws) f =
        applyWrites ws (fun q => if q = w.1 then some w.2 else f q) := rfl
    rw [step, ih _ (fun w' hw' => hg w' (by simp [hw'])) p]
    by_cases hp : p ∈ ws.map Prod.fst
    · simp [hp]
    · by_cases hpw : p = w.1
      · subst hpw; simp [hp, hw]
      · simp [hp, hpw]

/-- Every write a drawPart task performs carries the color of its own pixel. -/
theorem partWrites_val (g : ℕ → ℕ → GoColor) (x0 x1 y0 y1 : ℕ) :
    ∀ w ∈ partWrites g x0 x1 y0 y1, w.2 = g w.1.1 w.1.2 := by
  intro w hw
  simp only [partWrites, List.mem_flatMap, List.mem_map] at hw
  obtain ⟨y, -, x, -, rfl⟩ := hw
  rfl

/-- The pixels a drawPart task writes are exactly its rectangle. -/
theorem partWrites_keys (g : ℕ → ℕ → GoColor) (x0 x1 y0 y1 : ℕ) (p : ℕ × ℕ) :
    p ∈ (partWrites g x0 x1 y0 y1).map Prod.fst ↔
      (x0 ≤ p.1 ∧ p.1 < x0 + (x1 - x0)) ∧ (y0 ≤ p.2 ∧ p.2 < y0 + (y1 - y0)) := by
  simp only [partWrites, List.map_flatMap, List.map_map, List.mem_flatMap, List.mem_map,
    List.mem_range', Function.comp]
  constructor
  · rintro ⟨y, ⟨iy, hiy, rfl⟩, x, ⟨ix, hix, rfl⟩, rfl⟩
    refine ⟨⟨?_, ?_⟩, ⟨?_, ?_⟩⟩ <;> simp <;> omega
  · rintro ⟨hx, hy⟩
    exact ⟨p.2, ⟨p.2 - y0, by omega, by omega⟩, p.1, ⟨p.1 - x0, by omega, by omega⟩, by simp⟩

theorem quadWrites_val (g : ℕ → ℕ → GoColor) (w h : ℕ) :
    ∀ ww ∈ quadWrites g w h, ww.2 = g ww.1.1 ww.1.2 := by
  intro ww hww
  simp only [quadWrites, List.mem_append] at hww
  rcases hww with ((h1 | h1) | h1) | h1 <;> exact partWrites_val g _ _ _ _ _ h1

/-- The four quadrant tasks together write exactly the frame rectangle. -/
theorem quadWrites_keys (g : ℕ → ℕ → GoColor) (w h : ℕ) (p : ℕ × ℕ) :
    p ∈ (quadWrites g w h).map Prod.fst ↔ p.1 < w ∧ p.2 < h := by
  simp only [quadWrites, List.map_append, List.mem_append, partWrites_keys]
  omega

/-! Store-preservation machinery for the aliasing claim. -/

/-- s' extends s: no address alive in s has been overwritten. -/
def preserves (s s' : Store) : Prop :=
  s.arrays.length ≤ s'.arrays.length ∧ ∀ a, a < s.arrays.length → s'.read a = s.read a

theorem preserves_refl (s : Store) : preserves s s :=
  ⟨le_rfl, fun _ _ => rfl⟩

theorem preserves_trans {s s' s'' : Store} (h1 : preserves s s') (h2 : preserves s' s'') :
    preserves s s'' :=
  ⟨h1.1.trans h2.1, fun a ha => (h2.2 a (lt_of_lt_of_le ha h1.1)).trans (h1.2 a ha)⟩

theorem preserves_alloc (s : Store) (d : List ℝ) : preserves s (s.alloc d).1 := by
  refine ⟨by simp [Store.alloc], fun a ha => ?_⟩
  simp only [Store.alloc, Store.read]
  rw [List.getD_append _ _ _ _ ha]

/-- Writing at an address past the base store's frontier preserves the base
store. -/
theorem preserves_write {s0 s : Store} (b : ℕ) (d : List ℝ)
    (h : preserves s0 s) (hb : s0.arrays.length ≤ b) : preserves s0 (s.write b d) := by
  refine ⟨by simpa [Store.write] using h.1, fun a ha => ?_⟩
  have hne : b ≠ a := by omega
  have heq : (s.write b d).read a = s.read a := by
    simp only [Store.write, Store.read, List.getD, List.get?_eq_getElem?]
    rw [List.getElem?_set_ne hne]
  rw [heq]
  exact h.2 a ha

theorem preserves_foldl {α : Type} (s0 : Store) (b : ℕ) (hb : s0.arrays.length ≤ b)
    (step : Store → α → List ℝ) :
    ∀ (L : List α) (s : Store), preserves s0 s →
      preserves s0 (L.foldl (fun st i => st.write b (step st i)) s) := by
  intro L
  induction L with
  | nil => intro s hs; exact hs
  | cons x L ih =>
    intro s hs
    exact ih _ (preserves_write b _ hs hb)

/-- Activate only allocates fresh vectors and writes through them: every
backing array alive before the call is untouched (Activate itself performs
no CloneVec). -/
theorem activateS_preserves (f : Act → ℝ → ℝ) (l : Layer) (s : Store) (sig : VecRef) :
    preserves s (activateS f l s sig).1 := by
  simp only [activateS]
  refine preserves_foldl s _ ?_ _ _ _ ?_
  · simp only [Store.alloc, Store.write, List.length_append, List.length_set]
    omega
  · refine preserves_write _ _ ?_ ?_
    · refine preserves_trans ?_ (preserves_alloc _ _)
      refine preserves_write _ _ ?_ ?_
      · exact preserves_write _ _ (preserves_alloc _ _) le_rfl
      · exact le_rfl
    · simp only [Store.alloc, Store.write, List.length_append, List.length_set]
      omega

/-- The reference Activate returns: the freshly allocated activated vector,
of the layer's output width, at an address past the entry frontier. -/
theorem activateS_ref (f : Act → ℝ → ℝ) (l : Layer) (s : Store) (sig : VecRef) :
    (activateS f l s sig).2.n = l.weights.c ∧
      s.arrays.length ≤ (activateS f l s sig).2.addr := by
  constructor
  · rfl
  · simp only [activateS, Store.alloc, Store.write, List.length_append, List.length_set]
    omega

/-- CloneVec keeps the base store intact when the receiver lives past the
base frontier, and the resulting reference also lives past it. -/
theorem cloneVecS_high {s0 : Store} (s : Store) (v a : VecRef)
    (hpres : preserves s0 s) (hv : s0.arrays.length ≤ v.addr) :
    preserves s0 (cloneVecS s v a).1 ∧ s0.arrays.length ≤ (cloneVecS s v a).2.addr := by
  unfold cloneVecS
  split
  · exact ⟨preserves_write _ _ hpres hv, hv⟩
  · refine ⟨preserves_trans hpres (preserves_alloc _ _), ?_⟩
    show s0.arrays.length ≤ s.arrays.length
    exact hpres.1

/-- Once the signal reference has moved past the entry frontier, the rest of
the layer loop (Activate allocations plus CloneVec, whether it reuses or
reallocates) never writes below that frontier. -/
theorem pipeS_preserves_high (f : Act → ℝ → ℝ) :
    ∀ (ls : List Layer) (s0 s : Store) (sig : VecRef),
      preserves s0 s → s0.arrays.length ≤ sig.addr →
      preserves s0 (pipeS f ls s sig).1 := by
  intro ls
  induction ls with
  | nil => intro s0 s sig hpres _; exact hpres
  | cons l ls ih =>
    intro s0 s sig hpres hsig
    have h1 : preserves s0 (activateS f l s sig).1 :=
      preserves_trans hpres (activateS_preserves f l s sig)
    obtain ⟨h2, h3⟩ := cloneVecS_high (activateS f l s sig).1 sig
      (activateS f l s sig).2 h1 hsig
    exact ih s0 _ _ h2 h3

/-! The theta loop of main, characterised. -/

theorem animLoop_foldl (cfg : RenderConfig) :
    ∀ (L : List ℕ) (acc : GoGIF),
      L.foldl (fun a th => ⟨a.image ++ [renderFrame cfg th], a.delay ++ [0]⟩) acc =
        ⟨acc.image ++ L.map (renderFrame cfg), acc.delay ++ List.replicate L.length 0⟩ := by
  intro L
  induction L with
  | nil => intro acc; simp
  | cons t L ih =>
    intro acc
    rw [List.foldl_cons, ih]
    simp only [GoGIF.mk.injEq, List.map_cons, List.length_cons]
    refine ⟨?_, ?_⟩
    · rw [List.append_assoc]; rfl
    · rw [List.append_assoc, List.replicate_succ]; rfl

/-- Consecutive-index form of the chaining invariant. -/
theorem chainedFrom_getD :
    ∀ (ls : List Layer) (n : ℕ), chainedFrom ls n →
      ∀ i, i + 1 < ls.length →
        (ls.getD i defaultLayer).weights.c + 1 = (ls.getD (i + 1) defaultLayer).weights.r := by
  intro ls
  induction ls with
  | nil => intro n _ i hi; simp at hi
  | cons l ls ih =>
    intro n hc i hi
    obtain ⟨h1, h2⟩ := hc
    cases i with
    | zero =>
      cases ls with
      | nil => simp at hi
      | cons l' ls' =>
        obtain ⟨h1', -⟩ := h2
        simpa [List.getD] using h1'
    | succ i => exact ih _ h2 i (by simpa using hi)

/-! Numerical facts about the phase constant 1/(3π). -/

theorem loopGap_bounds : 0.083 < loopGap ∧ loopGap < 0.08302 := by
  have hl : (3.141592 : ℝ) < Real.pi := Real.pi_gt_d6
  have hu : Real.pi < 3.141593 := Real.pi_lt_d6
  have hpos : (0 : ℝ) < Real.pi * 3 := by linarith
  constructor
  · have h1 : (6.366196 : ℝ) < 60 / (Real.pi * 3) := by
      rw [lt_div_iff₀ hpos]
      nlinarith
    unfold loopGap
    nlinarith
  · have h2 : 60 / (Real.pi * 3) < 6.3662 := by
      rw [div_lt_iff₀ hpos]
      nlinarith
    unfold loopGap
    nlinarith

theorem phase2_as_gap : phase2 60 = Real.sin loopGap := by
  unfold phase2
  rw [show (60 : ℝ) / (Real.pi * 3) = loopGap + 2 * Real.pi by unfold loopGap; ring]
  rw [Real.sin_add_two_pi]

theorem phase1_as_gap : phase1 60 = Real.cos loopGap := by
  unfold phase1
  rw [show (60 : ℝ) / (Real.pi * 3) = loopGap + 2 * Real.pi by unfold loopGap; ring]
  rw [Real.cos_add_two_pi]

theorem phase2_sixty_bounds : 2 / 25 < phase2 60 ∧ phase2 60 < 21 / 250 := by
  obtain ⟨hg1, hg2⟩ := loopGap_bounds
  rw [phase2_as_gap]
  constructor
  · have hgt := Real.sin_gt_sub_cube (by linarith) (by linarith)
    have hg0 : (0 : ℝ) < loopGap := by linarith
    have hsq : loopGap ^ 2 < 0.08302 ^ 2 := by nlinarith
    have hcube : loopGap ^ 3 < 0.000573 := by
      nlinarith [mul_pos (show (0 : ℝ) < 0.08302 - loopGap by linarith) (mul_pos hg0 hg0)]
    linarith
  · have hlt := Real.sin_lt (show (0 : ℝ) < loopGap by linarith)
    linarith

theorem phase1_sixty_lt_one : phase1 60 < 1 := by
  obtain ⟨hg1, hg2⟩ := loopGap_bounds
  rw [phase1_as_gap]
  have hpi : (3.141592 : ℝ) < Real.pi := Real.pi_gt_d6
  have hne : Real.cos loopGap ≠ 1 := by
    intro h
    have hzero := (Real.cos_eq_one_iff_of_lt_of_lt (by linarith) (by linarith)).mp h
    linarith
  exact lt_of_le_of_ne (Real.cos_le_one loopGap) hne

theorem grayPalette_foldl :
    ∀ (L : List ℕ) (acc : List ℕ),
      L.foldl (fun a i => a ++ [i % 256]) acc = acc ++ L.map (fun i => i % 256) := by
  intro L
  induction L with
  | nil => intro acc; simp
  | cons t L ih =>
    intro acc
    rw [List.foldl_cons, ih]
    simp

theorem grayPaletteLevels_eq : grayPaletteLevels = List.range 255 := by
  unfold grayPaletteLevels
  rw [grayPalette_foldl, List.nil_append]
  have hcong : ∀ i ∈ List.range 255, i % 256 = i := by
    intro i hi
    rw [List.mem_range] at hi
    omega
  rw [List.map_congr_left hcong, List.map_id']

/-! Claims. -/

/-- Claim C1, counterexample.  The phase features are phase1 = cos(theta*k)
and phase2 = sin(theta*k) with k = 1/(3π), but this k does NOT make the
phase pair at theta = 60 (one full loop after the first sample theta = 0)
equal to the pair at theta = 0 within floating-point tolerance: the sine
component differs by more than 1/100 (in fact by about 0.083), many orders
of magnitude beyond double-precision rounding. -/
theorem claim_C1_counterexample : 1 / 100 < |phase2 60 - phase2 0| := by
  have h0 : phase2 0 = 0 := by
    unfold phase2
    rw [zero_div, Real.sin_zero]
  obtain ⟨h1, -⟩ := phase2_sixty_bounds
  rw [h0, sub_zero, abs_of_pos (by linarith)]
  linarith

/-- Claim C1, amended.  phase1 = cos(theta/(3π)) and phase2 = sin(theta/(3π)):
the implied period is 6π² ≈ 59.22 samples, not the 60 samples the program
iterates, so the phases at theta = 60 only approximately return to their
theta = 0 values.  Quantitatively the sine component at theta = 60 lies
strictly between 0.08 and 0.084 whereas it is 0 at theta = 0, and the cosine
component is strictly below its starting value 1; the loop therefore closes
approximately (a discontinuity of order 0.08 in feature space), not within
floating-point tolerance. -/
theorem claim_C1_amended :
    phase2 0 = 0 ∧ 2 / 25 < phase2 60 ∧ phase2 60 < 21 / 250 ∧
      phase1 0 = 1 ∧ phase1 60 < 1 := by
  obtain ⟨h1, h2⟩ := phase2_sixty_bounds
  refine ⟨?_, h1, h2, ?_, phase1_sixty_lt_one⟩
  · unfold phase2
    rw [zero_div, Real.sin_zero]
  · unfold phase1
    rw [zero_div, Real.cos_zero]

/-- Claim C2: for a fixed configuration the per-pixel colors of a frame are
independent of partitioning and write order.  Any interleaving ws of the
four quadrant tasks' writes (any permutation of their concatenation)
produces, from a fresh buffer, exactly the frame of a single sequential
pass over all pixels, because each write's color is the pure function
pixelColor of its own coordinates. -/
theorem claim_C2_partition_invariance (cfg : RenderConfig) (theta : ℕ)
    (ws : List ((ℕ × ℕ) × GoColor))
    (hperm : ws.Perm (quadWrites (pixelColor cfg theta) cfg.width cfg.height))
    (p : ℕ × ℕ) :
    applyWrites ws (fun _ => none) p =
      applyWrites (partWrites (pixelColor cfg theta) 0 cfg.width 0 cfg.height)
        (fun _ => none) p := by
  have hv : ∀ w ∈ ws, w.2 = pixelColor cfg theta w.1.1 w.1.2 := fun w hw =>
    quadWrites_val _ _ _ w (hperm.subset hw)
  rw [applyWrites_eq _ ws _ hv p,
    applyWrites_eq _ _ _ (partWrites_val (pixelColor cfg theta) 0 cfg.width 0 cfg.height) p]
  have hk : p ∈ ws.map Prod.fst ↔ p.1 < cfg.width ∧ p.2 < cfg.height := by
    rw [(hperm.map Prod.fst).mem_iff]
    exact quadWrites_keys _ _ _ p
  have hk2 : p ∈ (partWrites (pixelColor cfg theta) 0 cfg.width 0 cfg.height).map Prod.fst ↔
      p.1 < cfg.width ∧ p.2 < cfg.height := by
    rw [partWrites_keys]
    omega
  by_cases hp : p.1 < cfg.width ∧ p.2 < cfg.height
  · rw [if_pos (hk.mpr hp), if_pos (hk2.mpr hp)]
  · rw [if_neg (fun hc => hp (hk.mp hc)), if_neg (fun hc => hp (hk2.mp hc))]

theorem claim_C2_witness :
    (quadWrites (pixelColor testCfg 0) testCfg.width testCfg.height).Perm
      (quadWrites (pixelColor testCfg 0) testCfg.width testCfg.height) ∧
    applyWrites (quadWrites (pixelColor testCfg 0) testCfg.width testCfg.height)
        (fun _ => none) (0, 0) =
      applyWrites (partWrites (pixelColor testCfg 0) 0 testCfg.width 0 testCfg.height)
        (fun _ => none) (0, 0) :=
  ⟨List.Perm.refl _, claim_C2_partition_invariance testCfg 0 _ (List.Perm.refl _) (0, 0)⟩

/-- Claim C3: for a CPPN built from a valid configuration with numInputs = 5,
FeedForward fails with the DimensionMismatch panic iff the input length
differs from 5, and succeeds (never raises any error) when the length is 5,
whatever the depth and size. -/
theorem claim_C3_dimension_mismatch (g : ℕ → ℝ) (p : CPPNParam) (inputs : List ℝ)
    (_hv : validParam p) (h5 : p.numInputs = 5) :
    ((∃ m, feedForward actFn (newCPPN g p) inputs = .error (.dimensionMismatch m)) ↔
      inputs.length ≠ 5) ∧
    (inputs.length = 5 → ∃ out, feedForward actFn (newCPPN g p) inputs = .ok out) := by
  have hok : inputs.length = 5 → ∃ out, feedForward actFn (newCPPN g p) inputs = .ok out := by
    intro hlen
    have hchain : chainedFrom (newCPPN g p).layers inputs.length := by
      rw [hlen, ← h5]
      exact newCPPN_chained g p
    obtain ⟨out, hout, -⟩ := pipeLayers_ok actFn _ inputs hchain
    refine ⟨out, ?_⟩
    unfold feedForward
    rw [if_pos (by rw [newCPPN_param, h5]; exact hlen)]
    exact hout
  refine ⟨⟨?_, ?_⟩, hok⟩
  · rintro ⟨m, hm⟩ hlen
    obtain ⟨out, hout⟩ := hok hlen
    rw [hout] at hm
    exact absurd hm (by simp)
  · intro hne
    refine ⟨inputs.length, ?_⟩
    unfold feedForward
    rw [if_neg (by rw [newCPPN_param, h5]; exact hne)]

theorem claim_C3_witness :
    validParam testParam ∧ testParam.numInputs = 5 ∧
    (((∃ m, feedForward actFn (newCPPN zeroStream testParam) [] =
        .error (.dimensionMismatch m)) ↔ ([] : List ℝ).length ≠ 5) ∧
      (([] : List ℝ).length = 5 →
        ∃ out, feedForward actFn (newCPPN zeroStream testParam) [] = .ok out)) :=
  ⟨by decide, rfl, claim_C3_dimension_mismatch zeroStream testParam [] (by decide) rfl⟩

/-- Claim C4, counterexample.  The claim says an invalid configuration (here:
zero hidden layers) fails at construction time with InvalidConfiguration and
never yields a usable network.  In fact NewCPPN performs no validation at
all: for NumHiddenLayers = 0 it happily returns a two-layer network, and
FeedForward on a five-element input succeeds and returns three outputs. -/
theorem claim_C4_counterexample :
    (newCPPN zeroStream depthZeroParam).layers.length = 2 ∧
    ∃ out, feedForward actFn (newCPPN zeroStream depthZeroParam) [0, 0, 0, 0, 0] = .ok out ∧
      out.length = 3 := by
  constructor
  · rfl
  · have hchain : chainedFrom (newCPPN zeroStream depthZeroParam).layers
        ([0, 0, 0, 0, 0] : List ℝ).length := newCPPN_chained zeroStream depthZeroParam
    obtain ⟨out, hout, hlen⟩ := pipeLayers_ok actFn _ _ hchain
    refine ⟨out, ?_, ?_⟩
    · unfold feedForward
      rw [if_pos (show ([0, 0, 0, 0, 0] : List ℝ).length =
        (newCPPN zeroStream depthZeroParam).param.numInputs from rfl)]
      exact hout
    · rw [hlen]
      rfl

/-- Claim C4, amended.  NewCPPN performs no configuration validation and
there is no InvalidConfiguration error anywhere in the program; in
particular, for the configuration {5, 0, 16, 3} with zero hidden layers
(invalid according to the spec) and any weight stream, construction returns
a two-layer network whose shapes chain from the five inputs and whose
FeedForward succeeds on a five-element input with three outputs. -/
theorem claim_C4_amended (g : ℕ → ℝ) :
    (newCPPN g depthZeroParam).layers.length = 2 ∧
    chainedFrom (newCPPN g depthZeroParam).layers 5 ∧
    ∃ out, feedForward actFn (newCPPN g depthZeroParam) [0, 0, 0, 0, 0] = .ok out ∧
      out.length = 3 := by
  refine ⟨rfl, newCPPN_chained g depthZeroParam, ?_⟩
  have hchain : chainedFrom (newCPPN g depthZeroParam).layers
      ([0, 0, 0, 0, 0] : List ℝ).length := newCPPN_chained g depthZeroParam
  obtain ⟨out, hout, hlen⟩ := pipeLayers_ok actFn _ _ hchain
  refine ⟨out, ?_, ?_⟩
  · unfold feedForward
    rw [if_pos (show ([0, 0, 0, 0, 0] : List ℝ).length =
      (newCPPN g depthZeroParam).param.numInputs from rfl)]
    exact hout
  · rw [hlen]
    rfl

/-- Claim C5: for every valid configuration the constructed CPPN has
numHiddenLayers + 1 layers; the first has a (numInputs+1) × numHiddenNeurons
tanh weight matrix, the middle ones (numHiddenNeurons+1) × numHiddenNeurons
tanh matrices, the last a (numHiddenNeurons+1) × numOutputs sigmoid matrix;
and for every adjacent pair the pre-bias output size of layer i equals the
pre-bias input size of layer i+1 (columns of i plus the bias row equal the
rows of i+1). -/
theorem claim_C5_shapes (g : ℕ → ℝ) (p : CPPNParam) (hv : validParam p) :
    (newCPPN g p).layers.length = p.numHiddenLayers + 1 ∧
    (newCPPN g p).layers.map shape =
      (p.numInputs + 1, p.numHiddenNeurons, Act.tanh) ::
        (List.replicate (p.numHiddenLayers - 1)
            (p.numHiddenNeurons + 1, p.numHiddenNeurons, Act.tanh) ++
          [(p.numHiddenNeurons + 1, p.numOutputs, Act.sigmoid)]) ∧
    ∀ i, i + 1 < (newCPPN g p).layers.length →
      ((newCPPN g p).layers.getD i defaultLayer).weights.c + 1 =
        ((newCPPN g p).layers.getD (i + 1) defaultLayer).weights.r := by
  refine ⟨?_, ?_, chainedFrom_getD _ _ (newCPPN_chained g p)⟩
  · rw [newCPPN_layers]
    simp only [List.length_cons, List.length_append, midLayers_length, List.length_nil]
    have := hv.2.1
    omega
  · rw [newCPPN_layers]
    simp only [List.map_cons, List.map_append, List.map_nil, midLayers_shape,
      firstLayer_shape, lastLayer_shape, List.cons_append]

theorem claim_C5_witness :
    validParam testParam ∧
    ((newCPPN zeroStream testParam).layers.length = testParam.numHiddenLayers + 1 ∧
    (newCPPN zeroStream testParam).layers.map shape =
      (testParam.numInputs + 1, testParam.numHiddenNeurons, Act.tanh) ::
        (List.replicate (testParam.numHiddenLayers - 1)
            (testParam.numHiddenNeurons + 1, testParam.numHiddenNeurons, Act.tanh) ++
          [(testParam.numHiddenNeurons + 1, testParam.numOutputs, Act.sigmoid)]) ∧
    ∀ i, i + 1 < (newCPPN zeroStream testParam).layers.length →
      ((newCPPN zeroStream testParam).layers.getD i defaultLayer).weights.c + 1 =
        ((newCPPN zeroStream testParam).layers.getD (i + 1) defaultLayer).weights.r) :=
  ⟨by decide, claim_C5_shapes zeroStream testParam (by decide)⟩

/-- Claim C6: for a layer with an r × m weight matrix and an input of length
r - 1, Activate returns exactly the activation function mapped over the
product of the transposed weight matrix with the input extended by the
constant bias -1, and that output has length m.  (The absence of side
effects is covered by the store-level model: activateS_preserves shows
Activate writes only to vectors it allocates itself.) -/
theorem claim_C6_activate (f : Act → ℝ → ℝ) (l : Layer) (signal : List ℝ)
    (_h : signal.length + 1 = l.weights.r) :
    activate f l signal = (matTvec l.weights (signal ++ [-1])).map (f l.act) ∧
    (activate f l signal).length = l.weights.c :=
  ⟨activate_eq f l signal, activate_length f l signal⟩

theorem claim_C6_witness :
    ([(5 : ℝ)].length + 1 = testLayer.weights.r) ∧
    (activate actFn testLayer [5] =
        (matTvec testLayer.weights ([5] ++ [-1])).map (actFn testLayer.act) ∧
      (activate actFn testLayer [5]).length = testLayer.weights.c) :=
  ⟨by decide, claim_C6_activate actFn testLayer [5] (by decide)⟩

/-- Claim C7: for every CPPN built from a valid configuration and every
input of length numInputs, feedForward succeeds with exactly numOutputs
components, each strictly between 0 and 1 (final sigmoid layer); and every
hidden layer (all layers but the last) produces activations strictly
between -1 and 1 (tanh) on any signal. -/
theorem claim_C7_ranges (g : ℕ → ℝ) (p : CPPNParam) (inputs : List ℝ)
    (_hv : validParam p) (hlen : inputs.length = p.numInputs) :
    (∃ out, feedForward actFn (newCPPN g p) inputs = .ok out ∧
      out.length = p.numOutputs ∧ ∀ v ∈ out, 0 < v ∧ v < 1) ∧
    ∀ l ∈ (newCPPN g p).layers.dropLast, ∀ s : List ℝ,
      ∀ v ∈ activate actFn l s, -1 < v ∧ v < 1 := by
  constructor
  · have hchain : chainedFrom (newCPPN g p).layers inputs.length := by
      rw [hlen]
      exact newCPPN_chained g p
    have hchain2 : chainedFrom ((firstLayer g p :: midLayers g p) ++ [lastLayer g p])
        inputs.length := by
      rw [← newCPPN_layers]
      exact hchain
    obtain ⟨sig, hsig⟩ := pipeLayers_concat actFn (lastLayer g p)
      (firstLayer g p :: midLayers g p) inputs hchain2
    have hpipe : pipeLayers actFn (newCPPN g p).layers inputs =
        .ok (activate actFn (lastLayer g p) sig) := by
      rw [newCPPN_layers]
      exact hsig
    refine ⟨activate actFn (lastLayer g p) sig, ?_, ?_, ?_⟩
    · unfold feedForward
      rw [if_pos (by rw [newCPPN_param]; exact hlen)]
      exact hpipe
    · rw [activate_length]
      rfl
    · exact activate_sigmoid_mem (lastLayer g p) rfl sig
  · intro l hl s v hv'
    have hdrop : (newCPPN g p).layers.dropLast = firstLayer g p :: midLayers g p := by
      rw [newCPPN_layers, List.dropLast_concat]
    rw [hdrop, List.mem_cons] at hl
    rcases hl with hl | hl
    · subst hl
      exact activate_tanh_mem _ rfl _ v hv'
    · exact activate_tanh_mem _ (midLayers_mem g p l hl).2.2 _ v hv'

theorem claim_C7_witness :
    validParam testParam ∧ ([(0 : ℝ), 0, 0, 0, 0].length = testParam.numInputs) ∧
    ((∃ out, feedForward actFn (newCPPN zeroStream testParam) [0, 0, 0, 0, 0] = .ok out ∧
        out.length = testParam.numOutputs ∧ ∀ v ∈ out, 0 < v ∧ v < 1) ∧
      ∀ l ∈ (newCPPN zeroStream testParam).layers.dropLast, ∀ s : List ℝ,
        ∀ v ∈ activate actFn l s, -1 < v ∧ v < 1) :=
  ⟨by decide, by decide,
    claim_C7_ranges zeroStream testParam [0, 0, 0, 0, 0] (by decide) (by decide)⟩

/-- Claim C8: the assembler walks the 60 phase samples in order, appending
per sample exactly one rendered frame and one zero delay: the finished
animation is the list of renderFrame values over theta = 0..59 in order
(no frame re-rendered; the i-th appended frame is renderFrame at sample i)
with a parallel delay list of 60 zeros. -/
theorem claim_C8_assembler (cfg : RenderConfig) :
    (animLoop cfg).image = (List.range 60).map (renderFrame cfg) ∧
    (animLoop cfg).delay = List.replicate 60 0 ∧
    (animLoop cfg).image.length = 60 := by
  unfold animLoop
  rw [animLoop_foldl cfg (List.range 60) ⟨[], []⟩]
  refine ⟨by simp, by simp, by simp⟩

/-- Claim C9 (code bug): main's gray-mode palette loop runs i from 0 while
i < 255 (despite allocating capacity 256), so the palette it builds has 255
entries with gray levels 0 through 254 and NO entry with gray level 255 —
the claimed full 0–255 coverage fails exactly at intensity 255. -/
theorem claim_C9_palette_bug :
    grayPaletteLevels = List.range 255 ∧ grayPaletteLevels.length = 255 ∧
      255 ∉ grayPaletteLevels := by
  refine ⟨grayPaletteLevels_eq, ?_, ?_⟩
  · rw [grayPaletteLevels_eq, List.length_range]
  · rw [grayPaletteLevels_eq, List.mem_range]
    omega

set_option maxHeartbeats 1600000 in
/-- Claim C10, counterexample.  FeedForward does NOT always leave the
caller's input slice unchanged: mat64's CloneVec reuses the receiver's
backing when its capacity suffices (Data: use(v.mat.Data, a.n)), and
signalVec wraps the caller's slice, so for the valid configuration
{1, 1, 1, 1} with all-one weights and the one-element input slice [0]
(capacity 1, like the Go slice literal), the CloneVec after each layer
copies the layer's activation over the caller's array: after the call the
slice at the caller's address holds a sigmoid value, not its original 0. -/
theorem claim_C10_counterexample :
    ((feedForwardS actFn cexNet cexStore cexRef).1.1).read 0 ≠ cexStore.read 0 := by
  intro h
  simp only [cexNet, cexStore, cexRef, cexParam, newCPPN, newLayer, buildMiddles] at h
  norm_num [feedForwardS, pipeS, activateS, cloneVecS, Store.alloc, Store.read, Store.write,
    copyVec, matTvec, Dense.entry, actFn, Finset.sum_range_succ, Finset.sum_range_zero,
    List.getD, List.range_succ] at h
  exact absurd h (ne_of_gt (sigmoidFn_pos _))

/-- Claim C10, amended.  FeedForward leaves the caller's input slice
unchanged whenever the hidden width exceeds the input backing's capacity —
in particular in every run of this program, whose feature slices have
capacity 5 while size defaults to 24: Activate writes only to vectors it
allocates, and the first CloneVec then cannot reuse the caller's backing
(numHiddenNeurons > capacity), so the signal moves to fresh backing and
every later write stays past the original allocation frontier.  Without
that capacity condition the claim fails (see the counterexample): CloneVec
reuses backing of sufficient capacity, overwriting the caller's slice. -/
theorem claim_C10_amended (g : ℕ → ℝ) (p : CPPNParam) (s : Store) (inp : VecRef)
    (ha : inp.addr < s.arrays.length)
    (hcap : (s.read inp.addr).length < p.numHiddenNeurons) :
    ((feedForwardS actFn (newCPPN g p) s inp).1.1).read inp.addr = s.read inp.addr := by
  unfold feedForwardS
  by_cases hc : inp.n = (newCPPN g p).param.numInputs
  · rw [if_pos hc]
    have step : pipeS actFn (newCPPN g p).layers s inp =
        pipeS actFn (midLayers g p ++ [lastLayer g p])
          (cloneVecS (activateS actFn (firstLayer g p) s inp).1 inp
            (activateS actFn (firstLayer g p) s inp).2).1
          (cloneVecS (activateS actFn (firstLayer g p) s inp).1 inp
            (activateS actFn (firstLayer g p) s inp).2).2 := rfl
    have hpres1 : preserves s (activateS actFn (firstLayer g p) s inp).1 :=
      activateS_preserves actFn (firstLayer g p) s inp
    have hread : ((activateS actFn (firstLayer g p) s inp).1).read inp.addr =
        s.read inp.addr := hpres1.2 inp.addr ha
    have hcond : ¬ ((activateS actFn (firstLayer g p) s inp).2.n ≤
        (((activateS actFn (firstLayer g p) s inp).1).read inp.addr).length) := by
      rw [(activateS_ref actFn (firstLayer g p) s inp).1, hread]
      show ¬ (p.numHiddenNeurons ≤ (s.read inp.addr).length)
      omega
    have hclone : preserves s
          (cloneVecS (activateS actFn (firstLayer g p) s inp).1 inp
            (activateS actFn (firstLayer g p) s inp).2).1 ∧
        s.arrays.length ≤
          (cloneVecS (activateS actFn (firstLayer g p) s inp).1 inp
            (activateS actFn (firstLayer g p) s inp).2).2.addr := by
      unfold cloneVecS
      rw [if_neg hcond]
      refine ⟨preserves_trans hpres1 (preserves_alloc _ _), ?_⟩
      show s.arrays.length ≤ ((activateS actFn (firstLayer g p) s inp).1).arrays.length
      exact hpres1.1
    have hfinal := pipeS_preserves_high actFn (midLayers g p ++ [lastLayer g p]) s _ _
      hclone.1 hclone.2
    rw [step]
    exact hfinal.2 inp.addr ha
  · rw [if_neg hc]

theorem claim_C10_amended_witness :
    progRef.addr < testStore.arrays.length ∧
    (testStore.read progRef.addr).length < progParam.numHiddenNeurons ∧
    ((feedForwardS actFn (newCPPN zeroStream progParam) testStore progRef).1.1).read
      progRef.addr = testStore.read progRef.addr :=
  ⟨by decide, by decide,
    claim_C10_amended zeroStream progParam testStore progRef (by decide) (by decide)⟩

end Anigo
